import Mathlib

set_option maxRecDepth 4000

/-!
Verification development for the Telegram-bot agent runtime of the
ai-admin-panel repository.  Each definition is a shallow embedding of the
corresponding TypeScript function from the telegram-bot module; JS strings
are modelled as `String` (or `List Char` where per-character slicing is the
point), JS numbers as `Int` (the values involved are integers, and
`Date.now()` timestamps are exact in a float64), JS `Map` as an
insertion-ordered association list, and fallible code as `Except`.
-/

namespace AiAdminBot

/-! ### Constants (telegram-bot.ts) -/

def MAX_CONTEXT_MESSAGES : Nat := 20

def MAX_TOOL_ITERATIONS : Nat := 5

def TG_MAX_MESSAGE_LENGTH : Nat := 4000

def RATE_LIMIT_WINDOW_MS : Int := 60000

def RATE_LIMIT_MAX_MESSAGES : Nat := 10

def MAX_CACHED_USERS : Nat := 500

/-! ### JS values and the tool-argument sanitizer -/

/-- A JSON-ish JavaScript value as it can appear in LLM-produced tool
arguments.  String payloads are `List Char` so that `slice(0, n)` is
`List.take n`. -/
inductive JSVal where
  | str (s : List Char)
  | num (n : Int)
  | boolean (b : Bool)
  | null
  | arr (elems : List JSVal)
  | obj (fields : List (String × JSVal))

/-- One entry of the `sanitizeToolArgs` loop body: strings are sliced to
50000 chars, numbers clamped into [0, 1000] by
`Math.min(Math.max(value, 0), 1000)`, booleans kept, everything else
dropped (`// Ignore arrays, objects, etc. for safety`). -/
def sanitizeValue : JSVal → Option JSVal
  | .str s => some (.str (s.take 50000))
  | .num n => some (.num (min (max n 0) 1000))
  | .boolean b => some (.boolean b)
  | _ => none

/-- `sanitizeToolArgs(args)`: iterates `Object.entries(args)` (keys of a JS
object are distinct, so the per-key assignments are exactly a filterMap)
keeping only sanitized string/number/boolean fields. -/
def sanitizeToolArgs (args : List (String × JSVal)) : List (String × JSVal) :=
  args.filterMap (fun p => (sanitizeValue p.2).map (fun v => (p.1, v)))

/-! ### splitMessage (long-message splitter for Telegram) -/

/-- `remaining.lastIndexOf("\n", pos)`: the largest index `i ≤ pos` where a
newline occurs, `none` when there is none (JS returns -1). -/
def lastNewlineIdx (l : List Char) (pos : Nat) : Option Nat :=
  (List.range (pos + 1)).reverse.find? (fun i => l.get? i == some (Char.ofNat 10))

/-- The adjustment `if (splitIdx < maxLen * 0.3) splitIdx = maxLen`, with the
JS `-1` for "not found" folded into the `none` case (for every `maxLen`,
`-1 < 0.3 * maxLen` never picks the found index).  The float comparison
`splitIdx < maxLen * 0.3` is embedded as the exact integer comparison
`splitIdx * 10 < maxLen * 3`. -/
def adjustSplitIdx (maxLen : Nat) (found : Option Nat) : Nat :=
  match found with
  | none => maxLen
  | some i => if i * 10 < maxLen * 3 then maxLen else i

/-- The `while (remaining.length > 0)` loop of `splitMessage`, with explicit
fuel; `splitMessage` supplies `text.length` fuel, which suffices because
every iteration consumes at least one character when `maxLen ≥ 1`. -/
def splitLoop (maxLen : Nat) : Nat → List Char → List (List Char)
  | 0, _ => []
  | fuel + 1, remaining =>
    if remaining.length = 0 then []
    else if remaining.length ≤ maxLen then [remaining]
    else
      let splitIdx := adjustSplitIdx maxLen (lastNewlineIdx remaining maxLen)
      remaining.take splitIdx :: splitLoop maxLen fuel (remaining.drop splitIdx)

/-- `splitMessage(text, maxLen)`: returns `[text]` when it already fits,
otherwise repeatedly cuts a piece of at most `maxLen` characters,
preferring the last newline at or before `maxLen` unless it sits in the
first 30% of the window. -/
def splitMessage (text : List Char) (maxLen : Nat) : List (List Char) :=
  if text.length ≤ maxLen then [text] else splitLoop maxLen text.length text

/-! ### Insertion-ordered association-list model of a JS `Map` keyed by a
number.  `set` on a present key updates in place (JS keeps the original
insertion position); on an absent key it appends. -/

def mapGet? {α : Type} (k : Nat) (m : List (Nat × α)) : Option α :=
  (m.find? (fun p => p.1 == k)).map (fun p => p.2)

def mapHas {α : Type} (k : Nat) (m : List (Nat × α)) : Bool :=
  (mapGet? k m).isSome

def mapSet {α : Type} (k : Nat) (v : α) (m : List (Nat × α)) : List (Nat × α) :=
  if mapHas k m then m.map (fun p => if p.1 == k then (k, v) else p)
  else m ++ [(k, v)]

def mapDelete {α : Type} (k : Nat) (m : List (Nat × α)) : List (Nat × α) :=
  m.filter (fun p => p.1 != k)

/-! ### Per-user sliding-window rate limiter (isRateLimited) -/

abbrev RateMap := List (Nat × List Int)

/-- The pruning step `timestamps.filter(t => now - t < RATE_LIMIT_WINDOW_MS)`. -/
def pruneTs (now : Int) (ts : List Int) : List Int :=
  ts.filter (fun t => decide (now - t < RATE_LIMIT_WINDOW_MS))

/-- `isRateLimited(userId)` evaluated at time `now` on the rate-limit map:
prunes expired timestamps and stores the pruned array back; when the
remaining count reaches the limit, reports limited without recording;
otherwise records `now` (the JS code pushes onto the very array it just
stored) and reports not limited. -/
def isRateLimited (now : Int) (userId : Nat) (m : RateMap) : Bool × RateMap :=
  let timestamps := (mapGet? userId m).getD []
  let valid := pruneTs now timestamps
  if RATE_LIMIT_MAX_MESSAGES ≤ valid.length then (true, mapSet userId valid m)
  else (false, mapSet userId (valid ++ [now]) m)

/-- A sequence of rate-limit checks for one user at the given times,
returning the list of "limited?" answers and the final map. -/
def runCalls (userId : Nat) : List Int → RateMap → List Bool × RateMap
  | [], m => ([], m)
  | t :: ts, m =>
    let r := isRateLimited t userId m
    let rest := runCalls userId ts r.2
    (r.1 :: rest.1, rest.2)

/-! ### Allowed Telegram user ids (getAllowedUserIds / isUserAllowed) -/

/-- JS `envVal.split(",")` on the character list (the separator is the
single character comma); keeps empty pieces, and the empty string yields
one empty piece. -/
def splitOnComma : List Char → List (List Char)
  | [] => [[]]
  | c :: rest =>
    let r := splitOnComma rest
    if c = ',' then [] :: r
    else
      match r with
      | [] => [[c]]
      | h :: t => (c :: h) :: t

/-- JS `String.prototype.trim()`: strip whitespace from both ends. -/
def trimWs (l : List Char) : List Char :=
  ((l.dropWhile (fun c => c.isWhitespace)).reverse.dropWhile
    (fun c => c.isWhitespace)).reverse

/-- Value of the leading decimal-digit run, `none` when there is none. -/
def leadingDigitsVal (l : List Char) : Option Nat :=
  let ds := l.takeWhile (fun c => c.isDigit)
  if ds.isEmpty then none
  else some (ds.foldl (fun acc c => acc * 10 + (c.toNat - 48)) 0)

/-- `parseInt` (radix 10) on an already-trimmed character list: an optional
sign followed by a decimal-digit run, ignoring trailing garbage; `none`
models the JS `NaN` result. -/
def parseIntDec : List Char → Option Int
  | [] => none
  | c :: rest =>
    if c = '-' then (leadingDigitsVal rest).map (fun n => -(n : Int))
    else if c = '+' then (leadingDigitsVal rest).map (fun n => (n : Int))
    else (leadingDigitsVal (c :: rest)).map (fun n => (n : Int))

/-- `getAllowedUserIds()`: reads `process.env.TELEGRAM_ALLOWED_USERS || ""`
(the parameter `env` models the environment variable, `none` = unset);
an empty value yields `[]`, otherwise split on commas, trim each piece,
`parseInt` it, and drop the `NaN` entries. -/
def getAllowedUserIds (env : Option String) : List Int :=
  let envVal := env.getD ""
  if envVal = "" then []
  else (splitOnComma envVal.data).filterMap (fun s => parseIntDec (trimWs s))

/-- `isUserAllowed(userId)`: an empty allowlist admits everyone, otherwise
membership decides. -/
def isUserAllowed (env : Option String) (userId : Int) : Bool :=
  let allowed := getAllowedUserIds env
  if allowed.length = 0 then true else allowed.contains userId

/-! ### Messages, LLM responses and tool results -/

structure ToolFn where
  name : String
  arguments : String
deriving DecidableEq, Repr

/-- One entry of an OpenAI-style `tool_calls` array. -/
structure ToolCall where
  id : String
  function : ToolFn
deriving DecidableEq, Repr

/-- A chat message as stored in the per-user context and in the working
`llmMessages` list. -/
structure Message where
  role : String
  content : String
  tool_call_id : Option String := none
  tool_calls : List ToolCall := []
deriving DecidableEq, Repr

/-- `response.choices[i].message`: `content` may be null (`none`) and
`tool_calls` may be absent or empty (both modelled by `[]`). -/
structure RespMessage where
  content : Option String
  tool_calls : List ToolCall
deriving DecidableEq, Repr

structure Choice where
  message : RespMessage
deriving DecidableEq, Repr

structure LLMResponse where
  choices : List Choice
deriving DecidableEq, Repr

structure ImgInfo where
  url : String
  thumb : String
  description : String
deriving DecidableEq, Repr

/-- The `metadata` field of a tool result, as inspected by the loop. -/
inductive ToolMeta where
  | images (imgs : List ImgInfo)
  | generatedImage (url : String) (prompt : String)
  | other
deriving DecidableEq, Repr

/-- The `{ result, metadata? }` value returned by `executeTool`. -/
structure ToolExecResult where
  result : String
  metadata : Option ToolMeta := none
deriving DecidableEq, Repr

/-- An image queued for `replyWithPhoto`. -/
structure TgImage where
  url : String
  caption : Option String
deriving DecidableEq, Repr

/-- Image collection inside the tool loop: an `images` metadata contributes
its first 4 entries with `img.url || img.thumb`; a `generated_image`
metadata contributes its url when truthy. -/
def metaImages : Option ToolMeta → List TgImage
  | some (.images imgs) =>
      (imgs.take 4).map (fun img =>
        { url := if img.url = "" then img.thumb else img.url,
          caption := some img.description })
  | some (.generatedImage url prompt) =>
      if url = "" then [] else [{ url := url, caption := some prompt }]
  | _ => []

/-! ### Context trimming -/

/-- The `while (context.length > MAX_CONTEXT_MESSAGES * 2) context.shift()`
loop with explicit fuel; each iteration drops the front element. -/
def trimLoop : Nat → List Message → List Message
  | 0, l => l
  | fuel + 1, l =>
    if 2 * MAX_CONTEXT_MESSAGES < l.length then trimLoop fuel l.tail else l

/-- The trimming loop with enough fuel to finish (one unit per dropped
message always suffices). -/
def trimContext (l : List Message) : List Message := trimLoop l.length l

/-! ### The agent loop (processMessage) -/

/-- The system prompt prepended to the working message list. -/
def SYSTEM_PROMPT : String := "Ты — AI-ассистент для управления Hugo-блогом через Telegram. Ты помогаешь пользователю управлять контентом."

def NO_ANSWER_MESSAGE : String := "Не удалось получить ответ. Попробуйте ещё раз."

/-- Mutable state of the `while (iterations < MAX_TOOL_ITERATIONS)` loop. -/
structure LoopState where
  llmMessages : List Message
  toolResults : List (String × ToolExecResult)
  images : List TgImage
  lastResponse : Option LLMResponse
  finalContent : String
  calls : Nat
deriving Repr

/-- The body of `for (const toolCall of message.tool_calls)`: execute the
tool, record its result, collect images from its metadata, and append the
`tool` message carrying the originating call id. -/
def execOneTool (exec : String → String → ToolExecResult) (st : LoopState)
    (tc : ToolCall) : LoopState :=
  let toolResult := exec tc.function.name tc.function.arguments
  { st with
    toolResults := st.toolResults ++ [(tc.function.name, toolResult)],
    images := st.images ++ metaImages toolResult.metadata,
    llmMessages := st.llmMessages ++
      [{ role := "tool", content := toolResult.result, tool_call_id := some tc.id }] }

def execToolCalls (exec : String → String → ToolExecResult) (st : LoopState)
    (tcs : List ToolCall) : LoopState :=
  tcs.foldl (execOneTool exec) st

/-- One pass of the agent loop.  `llm` is the LLM client abstracted as a
function of the call index and the current working message list; `exec`
is the tool executor abstracted as a function of the tool name and its
raw JSON arguments string.  A response with a nonempty `tool_calls` array
appends the assistant message and the tool results to the working list
and loops; otherwise the response text becomes the final content and the
loop breaks.  The fuel is `MAX_TOOL_ITERATIONS`, matching the `while`
condition checked before each model call. -/
def runLoop (llm : Nat → List Message → LLMResponse)
    (exec : String → String → ToolExecResult) : Nat → LoopState → LoopState
  | 0, st => st
  | fuel + 1, st =>
    let response := llm st.calls st.llmMessages
    let st1 := { st with calls := st.calls + 1, lastResponse := some response }
    match response.choices.head? with
    | none => st1
    | some choice =>
      match choice.message.tool_calls with
      | [] => { st1 with finalContent := choice.message.content.getD "" }
      | tc :: tcs =>
        let st2 := { st1 with llmMessages := st1.llmMessages ++
          [{ role := "assistant", content := choice.message.content.getD "",
             tool_calls := tc :: tcs }] }
        runLoop llm exec fuel (execToolCalls exec st2 (tc :: tcs))

/-- `response?.choices?.[0]?.message?.content` with all the optional
fallbacks collapsing to the empty string. -/
def lastResponseContent : Option LLMResponse → String
  | some resp =>
    match resp.choices.head? with
    | some c => c.message.content.getD ""
    | none => ""
  | none => ""

/-- JS `Array.prototype.join(sep)`. -/
def jsJoin (sep : String) : List String → String
  | [] => ""
  | [s] => s
  | s :: rest => s ++ sep ++ jsJoin sep rest

/-- The value returned by `processMessage`, together with the state it
leaves behind: the session message list (`context`), the working list
passed to the model, the collected tool results, the last response and
the number of model calls made. -/
structure ProcOutcome where
  text : String
  images : List TgImage
  context : List Message
  llmMessages : List Message
  toolResults : List (String × ToolExecResult)
  lastResponse : Option LLMResponse
  llmCalls : Nat
deriving Repr

/-- The trimmed session after the user-message push: `context.push(...)`
followed by the trimming loop. -/
def pushedContext (userMessage : String) (context0 : List Message) : List Message :=
  trimContext (context0 ++ [{ role := "user", content := userMessage }])

/-- The loop state before the first model call:
`llmMessages = [systemPrompt, ...context]`, nothing collected yet. -/
def initialState (userMessage : String) (context0 : List Message) : LoopState :=
  { llmMessages := { role := "system", content := SYSTEM_PROMPT } ::
      pushedContext userMessage context0,
    toolResults := [], images := [], lastResponse := none,
    finalContent := "", calls := 0 }

/-- The loop state after the `while` loop of `processMessage` finishes. -/
def loopResult (llm : Nat → List Message → LLMResponse)
    (exec : String → String → ToolExecResult) (userMessage : String)
    (context0 : List Message) : LoopState :=
  runLoop llm exec MAX_TOOL_ITERATIONS (initialState userMessage context0)

/-- The final-content fallback chain after the loop: keep `finalContent` when
set; otherwise the last response text when truthy; otherwise the joined
collected tool-result texts when any; otherwise the fixed no-answer
message. -/
def finalizeText (st : LoopState) : String :=
  let fc1 := if st.finalContent = "" then lastResponseContent st.lastResponse
             else st.finalContent
  if fc1 = "" then
    if 0 < st.toolResults.length then
      jsJoin "\n\n" (st.toolResults.map (fun p => p.2.result))
    else NO_ANSWER_MESSAGE
  else fc1

/-- `processMessage(userMessage, telegramUserId)` given the user's current
session message list `context0`: appends the user message, trims, runs
the tool-calling loop on a fresh working list `[system] ++ context`, then
applies the final-content fallbacks and appends the final assistant
message to the session.  Tool-call and tool-result messages are pushed
only onto the working list, never onto the session. -/
def processMessage (llm : Nat → List Message → LLMResponse)
    (exec : String → String → ToolExecResult) (userMessage : String)
    (context0 : List Message) : ProcOutcome :=
  let st := loopResult llm exec userMessage context0
  { text := finalizeText st, images := st.images,
    context := pushedContext userMessage context0 ++
      [{ role := "assistant", content := finalizeText st }],
    llmMessages := st.llmMessages, toolResults := st.toolResults,
    lastResponse := st.lastResponse, llmCalls := st.calls }

/-! ### Per-user session store (userContexts) -/

/-- One entry of the `userContexts` map. -/
structure UserContext where
  messages : List Message
  lastActivity : Int
deriving DecidableEq, Repr

abbrev SessionStore := List (Nat × UserContext)

/-- One comparison step of the eviction scan: keep the entry with the
strictly smaller `lastActivity` (`oldestTime` starts at `Infinity`, so the
first entry always replaces an empty accumulator). -/
def olderEntry (acc : Option (Nat × UserContext)) (p : Nat × UserContext) :
    Option (Nat × UserContext) :=
  match acc with
  | none => some p
  | some q => if p.2.lastActivity < q.2.lastActivity then some p else some q

/-- The eviction scan of `getUserContext`: iterate the map entries in
insertion order keeping the first entry with the smallest `lastActivity`. -/
def oldestEntry (store : SessionStore) : Option (Nat × UserContext) :=
  store.foldl olderEntry none

/-- The capacity check of `getUserContext`: a new user hitting a full store
evicts the entry with the oldest `lastActivity` first. -/
def evictIfFull (telegramUserId : Nat) (store : SessionStore) : SessionStore :=
  if !mapHas telegramUserId store && decide (MAX_CACHED_USERS ≤ store.length) then
    match oldestEntry store with
    | some kv => mapDelete kv.1 store
    | none => store
  else store

/-- The creation step of `getUserContext`: a fresh empty session is stored
for a user not yet present. -/
def ensureEntry (now : Int) (telegramUserId : Nat) (store : SessionStore) :
    SessionStore :=
  if !mapHas telegramUserId store then
    mapSet telegramUserId { messages := [], lastActivity := now } store
  else store

/-- `getUserContext(telegramUserId)` at time `now`: when the user is new and
the store is at `MAX_CACHED_USERS` capacity, first evict the entry with
the oldest `lastActivity`; then create the entry if absent, refresh its
`lastActivity`, and return its message list (and the updated store). -/
def getUserContext (now : Int) (telegramUserId : Nat) (store : SessionStore) :
    List Message × SessionStore :=
  let store2 := ensureEntry now telegramUserId (evictIfFull telegramUserId store)
  let ctx := (mapGet? telegramUserId store2).getD { messages := [], lastActivity := now }
  (ctx.messages, mapSet telegramUserId { messages := ctx.messages, lastActivity := now } store2)

/-- `clearUserContext(telegramUserId)`: unconditionally stores a fresh empty
session for the user (no capacity check). -/
def clearUserContext (now : Int) (telegramUserId : Nat) (store : SessionStore) :
    SessionStore :=
  mapSet telegramUserId { messages := [], lastActivity := now } store

/-- The store produced by calling `clearUserContext` once for each of
`MAX_CACHED_USERS + 1` distinct fresh users. -/
def c3Overflow : SessionStore :=
  (List.range (MAX_CACHED_USERS + 1)).foldl
    (fun s i => clearUserContext 0 i s) []

/-- A store at exactly `MAX_CACHED_USERS` capacity, with user `i` last
active at time `i`. -/
def c3FullStore : SessionStore :=
  (List.range MAX_CACHED_USERS).map
    (fun i => (i, { messages := [], lastActivity := (i : Int) }))

/-! ### Tool execution engine (executeTool) -/

/-- The effectful bodies of the registered tool branches (database and
network work), abstracted as functions of the sanitized arguments; a
thrown JS error is an `Except.error`. -/
structure ToolEnv where
  list_articles : List (String × JSVal) → Except String ToolExecResult
  get_article : List (String × JSVal) → Except String ToolExecResult
  create_article : List (String × JSVal) → Except String ToolExecResult
  edit_article : List (String × JSVal) → Except String ToolExecResult
  delete_article : List (String × JSVal) → Except String ToolExecResult
  sync_articles : List (String × JSVal) → Except String ToolExecResult
  get_stats : List (String × JSVal) → Except String ToolExecResult
  search_images : List (String × JSVal) → Except String ToolExecResult
  generate_image : List (String × JSVal) → Except String ToolExecResult
  get_settings : List (String × JSVal) → Except String ToolExecResult
  save_settings : List (String × JSVal) → Except String ToolExecResult

/-- The tool names with a `case` in the `switch (name)` of `executeTool`. -/
def REGISTERED_TOOLS : List String :=
  ["list_articles", "get_article", "create_article", "edit_article",
   "delete_article", "sync_articles", "get_stats", "search_images",
   "generate_image", "get_settings", "save_settings"]

/-- `executeTool(name, args)`: sanitizes the arguments, then dispatches on
the tool name; the `default` branch returns an explanatory text instead
of raising. -/
def executeTool (envT : ToolEnv) (name : String) (args : List (String × JSVal)) :
    Except String ToolExecResult :=
  let safeArgs := sanitizeToolArgs args
  if name = "list_articles" then envT.list_articles safeArgs
  else if name = "get_article" then envT.get_article safeArgs
  else if name = "create_article" then envT.create_article safeArgs
  else if name = "edit_article" then envT.edit_article safeArgs
  else if name = "delete_article" then envT.delete_article safeArgs
  else if name = "sync_articles" then envT.sync_articles safeArgs
  else if name = "get_stats" then envT.get_stats safeArgs
  else if name = "search_images" then envT.search_images safeArgs
  else if name = "generate_image" then envT.generate_image safeArgs
  else if name = "get_settings" then envT.get_settings safeArgs
  else if name = "save_settings" then envT.save_settings safeArgs
  else Except.ok { result := "Неизвестный инструмент: " ++ name }

/-- A trivial tool environment for witnesses. -/
def trivialToolEnv : ToolEnv :=
  { list_articles := fun _ => Except.ok { result := "" },
    get_article := fun _ => Except.ok { result := "" },
    create_article := fun _ => Except.ok { result := "" },
    edit_article := fun _ => Except.ok { result := "" },
    delete_article := fun _ => Except.ok { result := "" },
    sync_articles := fun _ => Except.ok { result := "" },
    get_stats := fun _ => Except.ok { result := "" },
    search_images := fun _ => Except.ok { result := "" },
    generate_image := fun _ => Except.ok { result := "" },
    get_settings := fun _ => Except.ok { result := "" },
    save_settings := fun _ => Except.ok { result := "" } }

/-! ### The bot.on("message:text") handler -/

/-- An outgoing Telegram action of the text-message handler. -/
inductive Reply where
  | message (text : String)
  | photo (url : String) (caption : Option String)
  | chatAction
deriving DecidableEq, Repr

/-- The two global mutable maps of the module. -/
structure BotState where
  rateLimitMap : RateMap
  userContexts : SessionStore
deriving Repr

structure HandlerOutcome where
  replies : List Reply
  llmCalls : Nat
  state : BotState
deriving Repr

def NO_ACCESS_REPLY : String := "⛔ У вас нет доступа к этому боту."

/-- JS `s.startsWith(pre)` as a character-list prefix test. -/
def strStartsWith (s pre : String) : Bool := List.isPrefixOf pre.data s.data

def RATE_LIMIT_REPLY : String :=
  "⏳ Слишком много сообщений. Подождите минуту перед следующим запросом."

/-- The `processMessage` entry point as the handler sees it: fetch the
session via `getUserContext` (the session list is a live reference, so
the pushes made by `processMessage` land in the store). -/
def processMessageWithStore (llm : Nat → List Message → LLMResponse)
    (exec : String → String → ToolExecResult) (now : Int) (userId : Nat)
    (text : String) (store : SessionStore) : ProcOutcome × SessionStore :=
  let g := getUserContext now userId store
  let o := processMessage llm exec text g.1
  (o, mapSet userId { messages := o.context, lastActivity := now } g.2)

/-- The `bot.on("message:text")` handler: access check, command filter,
rate limiting, then the agent loop followed by photo sends (at most 5)
and the split text parts. -/
def handleTextMessage (env : Option String) (llm : Nat → List Message → LLMResponse)
    (exec : String → String → ToolExecResult) (now : Int) (userId : Nat)
    (text : String) (st : BotState) : HandlerOutcome :=
  if isUserAllowed env userId = false then
    { replies := [.message NO_ACCESS_REPLY], llmCalls := 0, state := st }
  else if text = "" ∨ strStartsWith text "/" = true then
    { replies := [], llmCalls := 0, state := st }
  else
    let rl := isRateLimited now userId st.rateLimitMap
    let st1 : BotState := { st with rateLimitMap := rl.2 }
    if rl.1 then
      { replies := [.message RATE_LIMIT_REPLY], llmCalls := 0, state := st1 }
    else
      let pm := processMessageWithStore llm exec now userId text st1.userContexts
      { replies := Reply.chatAction ::
          ((pm.1.images.take 5).map (fun img =>
            Reply.photo img.url (img.caption.map (fun c => c.take 200))))
          ++ (splitMessage pm.1.text.data TG_MAX_MESSAGE_LENGTH).map
              (fun part => Reply.message (String.mk part)),
        llmCalls := pm.1.llmCalls,
        state := { st1 with userContexts := pm.2 } }

/-! ### Mocked collaborators for the scenario claims -/

/-- The tool call returned by the mocked model in the C1 scenario. -/
def c1ToolCall : ToolCall :=
  { id := "call_1", function := { name := "list_articles", arguments := "\x7b\x7d" } }

/-- Mocked LLM client for the C1 end-to-end scenario: first call returns one
`list_articles` tool call, second call returns the final text. -/
def c1MockLLM : Nat → List Message → LLMResponse := fun n _ =>
  if n = 0 then
    { choices := [{ message := { content := none, tool_calls := [c1ToolCall] } }] }
  else
    { choices := [{ message := { content := some "Here are your 2 articles.", tool_calls := [] } }] }

/-- Mocked tool registry for the C1 scenario. -/
def c1MockExec : String → String → ToolExecResult := fun _ _ =>
  { result := "2 articles found" }

/-- An LLM client that immediately answers with final text. -/
def oneShotLLM : Nat → List Message → LLMResponse := fun _ _ =>
  { choices := [{ message := { content := some "ok", tool_calls := [] } }] }

/-- A tool executor that is never reached by `oneShotLLM`. -/
def unusedExec : String → String → ToolExecResult := fun _ _ => { result := "" }

/-- The session after `n` full turns of `processMessage` with an immediate
final answer, starting from an empty session. -/
def sessionAfterTurns : Nat → List Message
  | 0 => []
  | n + 1 => (processMessage oneShotLLM unusedExec "hi" (sessionAfterTurns n)).context

/-- The tool call returned by the mocked model in the C4 scenario. -/
def c4ToolCall : ToolCall :=
  { id := "t1", function := { name := "get_stats", arguments := "\x7b\x7d" } }

/-- Mocked LLM client that returns a tool call on every invocation. -/
def c4MockLLM : Nat → List Message → LLMResponse := fun _ _ =>
  { choices := [{ message := { content := some "", tool_calls := [c4ToolCall] } }] }

/-- Mocked tool executor for the C4 scenario. -/
def c4MockExec : String → String → ToolExecResult := fun _ _ => { result := "ok" }

end AiAdminBot

namespace AiAdminBot

/-! ### Lemmas and claim theorems for the sanitizer -/

theorem sanitizeToolArgs_cons (p : String × JSVal) (t : List (String × JSVal)) :
    sanitizeToolArgs (p :: t) =
      (match sanitizeValue p.2 with
       | none => sanitizeToolArgs t
       | some w => (p.1, w) :: sanitizeToolArgs t) := by
  cases hv : sanitizeValue p.2 <;>
    simp [sanitizeToolArgs, List.filterMap_cons, hv]

theorem sanitizeValue_idem {v w : JSVal} (h : sanitizeValue v = some w) :
    sanitizeValue w = some w := by
  cases v with
  | str s =>
      simp only [sanitizeValue, Option.some.injEq] at h
      subst h
      simp [sanitizeValue, List.take_take]
  | num n =>
      simp only [sanitizeValue, Option.some.injEq] at h
      subst h
      simp only [sanitizeValue, Option.some.injEq, JSVal.num.injEq]
      omega
  | boolean b =>
      simp only [sanitizeValue, Option.some.injEq] at h
      subst h
      rfl
  | null => simp [sanitizeValue] at h
  | arr l => simp [sanitizeValue] at h
  | obj l => simp [sanitizeValue] at h

/-- Claim C7: `sanitizeToolArgs` truncates string values to 50000 chars
(100000 chars become exactly 50000), clamps numbers into [0, 1000]
(-5 becomes 0, 5000 becomes 1000), passes booleans through, drops every
field of any other type (array, object, null), and is idempotent. -/
theorem c7_sanitize_bounds_idempotent (args : List (String × JSVal)) (x : Char) :
    sanitizeToolArgs (sanitizeToolArgs args) = sanitizeToolArgs args
    ∧ (∀ k s, (k, JSVal.str s) ∈ args →
        (k, JSVal.str (s.take 50000)) ∈ sanitizeToolArgs args)
    ∧ (∀ k n, (k, JSVal.num n) ∈ args →
        (k, JSVal.num (min (max n 0) 1000)) ∈ sanitizeToolArgs args)
    ∧ (∀ k b, (k, JSVal.boolean b) ∈ args →
        (k, JSVal.boolean b) ∈ sanitizeToolArgs args)
    ∧ (∀ p ∈ sanitizeToolArgs args,
        (∃ s, p.2 = JSVal.str s ∧ s.length ≤ 50000)
        ∨ (∃ n, p.2 = JSVal.num n ∧ 0 ≤ n ∧ n ≤ 1000)
        ∨ (∃ b, p.2 = JSVal.boolean b))
    ∧ sanitizeToolArgs
        [("text", JSVal.str (List.replicate 100000 x)), ("a", JSVal.num (-5)),
         ("b", JSVal.num 5000), ("c", JSVal.boolean true), ("d", JSVal.null),
         ("e", JSVal.arr []), ("f", JSVal.obj [])]
      = [("text", JSVal.str (List.replicate 50000 x)), ("a", JSVal.num 0),
         ("b", JSVal.num 1000), ("c", JSVal.boolean true)] := by
  refine ⟨?_, ?_, ?_, ?_, ?_, ?_⟩
  · induction args with
    | nil => rfl
    | cons p t ih =>
        cases hp : sanitizeValue p.2 with
        | none => simp [sanitizeToolArgs_cons, hp, ih]
        | some w =>
            simp only [sanitizeToolArgs_cons, hp]
            simp [sanitizeToolArgs_cons, sanitizeValue_idem hp, ih]
  · intro k s hmem
    simp only [sanitizeToolArgs, List.mem_filterMap]
    exact ⟨(k, JSVal.str s), hmem, by simp [sanitizeValue]⟩
  · intro k n hmem
    simp only [sanitizeToolArgs, List.mem_filterMap]
    exact ⟨(k, JSVal.num n), hmem, by simp [sanitizeValue]⟩
  · intro k b hmem
    simp only [sanitizeToolArgs, List.mem_filterMap]
    exact ⟨(k, JSVal.boolean b), hmem, by simp [sanitizeValue]⟩
  · intro p hp
    simp only [sanitizeToolArgs, List.mem_filterMap] at hp
    obtain ⟨q, _, hq⟩ := hp
    cases v : q.2 with
    | str s =>
        rw [v] at hq
        simp only [sanitizeValue, Option.map_some', Option.some.injEq] at hq
        subst hq
        exact Or.inl ⟨s.take 50000, rfl, by simp⟩
    | num n =>
        rw [v] at hq
        simp only [sanitizeValue, Option.map_some', Option.some.injEq] at hq
        subst hq
        exact Or.inr (Or.inl ⟨min (max n 0) 1000, rfl, by omega, by omega⟩)
    | boolean b =>
        rw [v] at hq
        simp only [sanitizeValue, Option.map_some', Option.some.injEq] at hq
        subst hq
        exact Or.inr (Or.inr ⟨b, rfl⟩)
    | null => rw [v] at hq; simp [sanitizeValue] at hq
    | arr l => rw [v] at hq; simp [sanitizeValue] at hq
    | obj l => rw [v] at hq; simp [sanitizeValue] at hq
  · simp only [sanitizeToolArgs, List.filterMap_cons, List.filterMap_nil,
      sanitizeValue, Option.map_some', List.take_replicate]
    norm_num

/-- Witness for C7: the quantified membership facts applied at a concrete
argument map. -/
theorem c7_witness :
    ("k", JSVal.num (-5)) ∈ [("k", JSVal.num (-5))]
    ∧ ("k", JSVal.num 0) ∈ sanitizeToolArgs [("k", JSVal.num (-5))] := by
  refine ⟨by simp, ?_⟩
  have h := (c7_sanitize_bounds_idempotent [("k", JSVal.num (-5))] 'x').2.2.1
      "k" (-5) (by simp)
  simpa using h

/-! ### Lemmas and claim theorems for splitMessage -/

theorem lastNewlineIdx_le {l : List Char} {pos i : Nat}
    (h : lastNewlineIdx l pos = some i) : i ≤ pos := by
  have hm := List.mem_of_find?_eq_some h
  rw [List.mem_reverse, List.mem_range] at hm
  omega

theorem adjustSplitIdx_pos {maxLen : Nat} {found : Option Nat}
    (h1 : 1 ≤ maxLen) : 1 ≤ adjustSplitIdx maxLen found := by
  cases found with
  | none => simpa [adjustSplitIdx] using h1
  | some i =>
      simp only [adjustSplitIdx]
      split <;> omega

theorem adjustSplitIdx_le {maxLen : Nat} {found : Option Nat}
    (hle : ∀ j, found = some j → j ≤ maxLen) :
    adjustSplitIdx maxLen found ≤ maxLen := by
  cases found with
  | none => simp [adjustSplitIdx]
  | some i =>
      have hi := hle i rfl
      simp only [adjustSplitIdx]
      split <;> omega

theorem splitLoop_spec {maxLen : Nat} (hmax : 1 ≤ maxLen) :
    ∀ fuel (remaining : List Char), remaining.length ≤ fuel →
      (splitLoop maxLen fuel remaining).flatten = remaining
      ∧ ∀ p ∈ splitLoop maxLen fuel remaining, p.length ≤ maxLen := by
  intro fuel
  induction fuel with
  | zero =>
      intro remaining hlen
      have hnil : remaining = [] := List.eq_nil_of_length_eq_zero (by omega)
      subst hnil
      simp [splitLoop]
  | succ fuel ih =>
      intro remaining hlen
      by_cases h0 : remaining.length = 0
      · have hnil : remaining = [] := List.eq_nil_of_length_eq_zero h0
        subst hnil
        simp [splitLoop]
      · by_cases hfit : remaining.length ≤ maxLen
        · simp [splitLoop, h0, hfit]
        · have hidx1 : 1 ≤ adjustSplitIdx maxLen (lastNewlineIdx remaining maxLen) :=
            adjustSplitIdx_pos hmax
          have hidx2 : adjustSplitIdx maxLen (lastNewlineIdx remaining maxLen) ≤ maxLen :=
            adjustSplitIdx_le (fun j hj => lastNewlineIdx_le hj)
          have hstep : splitLoop maxLen (fuel + 1) remaining =
              remaining.take (adjustSplitIdx maxLen (lastNewlineIdx remaining maxLen))
                :: splitLoop maxLen fuel
                  (remaining.drop (adjustSplitIdx maxLen (lastNewlineIdx remaining maxLen))) := by
            simp [splitLoop, h0, hfit]
          have hdrop :
              (remaining.drop (adjustSplitIdx maxLen (lastNewlineIdx remaining maxLen))).length
                ≤ fuel := by
            simp only [List.length_drop]
            omega
          obtain ⟨ihj, ihp⟩ := ih _ hdrop
          rw [hstep]
          constructor
          · rw [List.flatten_cons, ihj, List.take_append_drop]
          · intro p hp
            rcases List.mem_cons.mp hp with hp1 | hp2
            · subst hp1
              rw [List.length_take]
              omega
            · exact ihp p hp2

/-- Claim C9: for every string and every `maxLen ≥ 1`, the parts returned by
`splitMessage` concatenate back to the input, each part is at most `maxLen`
long, and an input that already fits is returned as the single-element
list containing it. -/
theorem c9_splitMessage_correct (s : List Char) (maxLen : Nat) (hmax : 1 ≤ maxLen) :
    (splitMessage s maxLen).flatten = s
    ∧ (∀ p ∈ splitMessage s maxLen, p.length ≤ maxLen)
    ∧ (s.length ≤ maxLen → splitMessage s maxLen = [s]) := by
  by_cases hfit : s.length ≤ maxLen
  · refine ⟨by simp [splitMessage, hfit], ?_, fun _ => by simp [splitMessage, hfit]⟩
    intro p hp
    simp only [splitMessage, if_pos hfit, List.mem_singleton] at hp
    subst hp
    omega
  · obtain ⟨hj, hp⟩ := splitLoop_spec hmax s.length s (le_refl _)
    refine ⟨?_, ?_, fun hcontra => absurd hcontra hfit⟩
    · simpa [splitMessage, hfit] using hj
    · simpa [splitMessage, hfit] using hp

/-- Witness for C9 at the concrete input "hello\nworld" with maxLen 4. -/
theorem c9_witness :
    1 ≤ 4
    ∧ (splitMessage (String.data "hello\nworld") 4).flatten = String.data "hello\nworld" :=
  ⟨by norm_num, (c9_splitMessage_correct (String.data "hello\nworld") 4 (by norm_num)).1⟩

/-! ### Lemmas and claim theorems for the rate limiter -/

theorem pruneTs_replicate_self (t : Int) (j : Nat) :
    pruneTs t (List.replicate j t) = List.replicate j t := by
  apply List.filter_eq_self.mpr
  intro a ha
  rw [List.eq_of_mem_replicate ha]
  simp only [decide_eq_true_eq, RATE_LIMIT_WINDOW_MS]
  omega

theorem pruneTs_replicate_expired (t : Int) (j : Nat) :
    pruneTs (t + RATE_LIMIT_WINDOW_MS) (List.replicate j t) = [] := by
  apply List.filter_eq_nil_iff.mpr
  intro a ha
  rw [List.eq_of_mem_replicate ha]
  simp only [decide_eq_true_eq, RATE_LIMIT_WINDOW_MS]
  omega

theorem mapSet_single {α : Type} (k : Nat) (v w : α) :
    mapSet k v [(k, w)] = [(k, v)] := by
  simp [mapSet, mapHas, mapGet?]

theorem runCalls_cons (userId : Nat) (t : Int) (ts : List Int) (m : RateMap) :
    runCalls userId (t :: ts) m =
      ((isRateLimited t userId m).1
          :: (runCalls userId ts (isRateLimited t userId m).2).1,
        (runCalls userId ts (isRateLimited t userId m).2).2) := rfl

theorem runCalls_append (userId : Nat) (l1 l2 : List Int) (m : RateMap) :
    runCalls userId (l1 ++ l2) m =
      ((runCalls userId l1 m).1 ++ (runCalls userId l2 (runCalls userId l1 m).2).1,
        (runCalls userId l2 (runCalls userId l1 m).2).2) := by
  induction l1 generalizing m with
  | nil => simp [runCalls]
  | cons a l ih => simp [runCalls, ih]

theorem isRateLimited_replicate_accept (userId : Nat) (t : Int) (j : Nat)
    (hj : j < RATE_LIMIT_MAX_MESSAGES) :
    isRateLimited t userId [(userId, List.replicate j t)]
      = (false, [(userId, List.replicate (j + 1) t)]) := by
  have hget : (mapGet? userId [(userId, List.replicate j t)]).getD []
      = List.replicate j t := by
    simp [mapGet?]
  simp only [isRateLimited, hget, pruneTs_replicate_self, List.length_replicate]
  rw [if_neg (by omega)]
  rw [List.replicate_succ' j t]
  rw [mapSet_single]

theorem c5_run_aux (userId : Nat) (t : Int) :
    ∀ i j, j + i ≤ RATE_LIMIT_MAX_MESSAGES →
      runCalls userId (List.replicate i t) [(userId, List.replicate j t)]
        = (List.replicate i false, [(userId, List.replicate (j + i) t)]) := by
  intro i
  induction i with
  | zero => intro j h; simp [runCalls]
  | succ i ih =>
      intro j h
      rw [List.replicate_succ, runCalls_cons,
        isRateLimited_replicate_accept userId t j (by omega), ih (j + 1) (by omega)]
      have harith : j + 1 + i = j + (i + 1) := by omega
      rw [harith]
      simp [List.replicate_succ]

/-- Claim C5: the rate-limit check prunes timestamps outside the 60s window,
reports limited without recording when the pruned count is at least 10,
and otherwise records `now` and reports allowed; consequently 10 calls
within one window are accepted, the 11th is rejected, and a call made a
full window after the burst is accepted again. -/
theorem c5_rate_limit_window (now : Int) (userId : Nat) (m : RateMap) (t : Int) :
    (RATE_LIMIT_MAX_MESSAGES ≤ (pruneTs now ((mapGet? userId m).getD [])).length →
        isRateLimited now userId m
          = (true, mapSet userId (pruneTs now ((mapGet? userId m).getD [])) m))
    ∧ ((pruneTs now ((mapGet? userId m).getD [])).length < RATE_LIMIT_MAX_MESSAGES →
        isRateLimited now userId m
          = (false, mapSet userId (pruneTs now ((mapGet? userId m).getD []) ++ [now]) m))
    ∧ (runCalls userId (List.replicate 11 t) []).1 = List.replicate 10 false ++ [true]
    ∧ (isRateLimited (t + RATE_LIMIT_WINDOW_MS) userId
        (runCalls userId (List.replicate 11 t) []).2).1 = false := by
  have hrun : runCalls userId (List.replicate 11 t) []
      = (List.replicate 10 false ++ [true], [(userId, List.replicate 10 t)]) := by
    have h1 : isRateLimited t userId [] = (false, [(userId, List.replicate 1 t)]) := by
      simp [isRateLimited, mapGet?, pruneTs, mapSet, mapHas, RATE_LIMIT_MAX_MESSAGES,
        List.replicate_succ]
    have h10 : List.replicate 11 t = t :: (List.replicate 9 t ++ [t]) := by
      rw [show (11 : Nat) = 10 + 1 from rfl, show (10 : Nat) = 9 + 1 from rfl,
        List.replicate_succ, List.replicate_succ']
    have hcap : isRateLimited t userId [(userId, List.replicate 10 t)]
        = (true, [(userId, List.replicate 10 t)]) := by
      have hget : (mapGet? userId [(userId, List.replicate 10 t)]).getD []
          = List.replicate 10 t := by simp [mapGet?]
      simp only [isRateLimited, hget, pruneTs_replicate_self, List.length_replicate]
      rw [if_pos (by norm_num [RATE_LIMIT_MAX_MESSAGES]), mapSet_single]
    have haux := c5_run_aux userId t 9 1 (by norm_num [RATE_LIMIT_MAX_MESSAGES])
    rw [show (1 : Nat) + 9 = 10 from rfl] at haux
    rw [h10]
    simp only [runCalls_cons, h1, runCalls_append]
    rw [haux, hcap]
    simp [runCalls, List.replicate_succ]
  refine ⟨?_, ?_, ?_, ?_⟩
  · intro h
    simp only [isRateLimited]
    rw [if_pos h]
  · intro h
    simp only [isRateLimited]
    rw [if_neg (by omega)]
  · rw [hrun]
  · rw [hrun]
    simp only [isRateLimited]
    have hget : (mapGet? userId [(userId, List.replicate 10 t)]).getD []
        = List.replicate 10 t := by simp [mapGet?]
    simp only [hget, pruneTs_replicate_expired, List.length_nil]
    norm_num [RATE_LIMIT_MAX_MESSAGES]

/-- Witness for C5: an allowed first call from an empty window. -/
theorem c5_witness :
    (pruneTs 0 ((mapGet? 0 ([] : RateMap)).getD [])).length < RATE_LIMIT_MAX_MESSAGES
    ∧ isRateLimited 0 0 []
        = (false, mapSet 0 (pruneTs 0 ((mapGet? 0 ([] : RateMap)).getD []) ++ [0]) []) :=
  ⟨by decide, (c5_rate_limit_window 0 0 [] 0).2.1 (by decide)⟩

/-! ### Claim theorem for the user allowlist -/

/-- Claim C10: with the environment variable unset, empty, or containing no
parseable numeric ids, every user is allowed; otherwise exactly the ids
in the parsed comma-separated list are allowed. -/
theorem c10_isUserAllowed (env : Option String) (userId : Int) :
    isUserAllowed none userId = true
    ∧ isUserAllowed (some "") userId = true
    ∧ isUserAllowed (some "abc, def") userId = true
    ∧ (getAllowedUserIds env = [] → isUserAllowed env userId = true)
    ∧ (getAllowedUserIds env ≠ [] →
        (isUserAllowed env userId = true ↔ userId ∈ getAllowedUserIds env)) := by
  refine ⟨?_, ?_, ?_, ?_, ?_⟩
  · simp [isUserAllowed, getAllowedUserIds]
  · simp [isUserAllowed, getAllowedUserIds]
  · have h3 : getAllowedUserIds (some "abc, def") = [] := by rfl
    simp [isUserAllowed, h3]
  · intro h
    simp [isUserAllowed, h]
  · intro h
    have hlen : (getAllowedUserIds env).length ≠ 0 := by
      simpa [List.length_eq_zero] using h
    simp [isUserAllowed, hlen, List.elem_iff]

/-- Witness for C10: a two-id allowlist admits a listed id. -/
theorem c10_witness :
    getAllowedUserIds (some "5,6") ≠ []
    ∧ isUserAllowed (some "5,6") 5 = true :=
  ⟨by decide,
    ((c10_isUserAllowed (some "5,6") 5).2.2.2.2 (by decide)).mpr (by decide)⟩

end AiAdminBot

namespace AiAdminBot

/-- Claim C8: for every tool name outside the registered set, executeTool
returns a result whose text is an explanatory unknown-tool message and
does not raise. -/
theorem c8_unknown_tool (envT : ToolEnv) (name : String)
    (args : List (String × JSVal)) (h : name ∉ REGISTERED_TOOLS) :
    executeTool envT name args
      = Except.ok { result := "Неизвестный инструмент: " ++ name } := by
  simp only [REGISTERED_TOOLS, List.mem_cons, List.not_mem_nil, or_false, not_or] at h
  obtain ⟨h1, h2, h3, h4, h5, h6, h7, h8, h9, h10, h11⟩ := h
  simp [executeTool, h1, h2, h3, h4, h5, h6, h7, h8, h9, h10, h11]

/-- Witness for C8 at the unregistered name "frobnicate". -/
theorem c8_witness :
    "frobnicate" ∉ REGISTERED_TOOLS
    ∧ executeTool trivialToolEnv "frobnicate" []
        = Except.ok { result := "Неизвестный инструмент: " ++ "frobnicate" } :=
  ⟨by decide, c8_unknown_tool trivialToolEnv "frobnicate" [] (by decide)⟩

theorem trimLoop_length : ∀ (fuel : Nat) (l : List Message),
    l.length ≤ 2 * MAX_CONTEXT_MESSAGES + fuel →
    (trimLoop fuel l).length = min l.length (2 * MAX_CONTEXT_MESSAGES) := by
  intro fuel
  induction fuel with
  | zero =>
      intro l h
      simp only [trimLoop, MAX_CONTEXT_MESSAGES] at *
      omega
  | succ fuel ih =>
      intro l h
      simp only [trimLoop]
      split
      · rw [ih l.tail (by simp only [List.length_tail]; omega)]
        simp only [List.length_tail, MAX_CONTEXT_MESSAGES] at *
        omega
      · simp only [MAX_CONTEXT_MESSAGES] at *
        omega

theorem trimContext_length (l : List Message) :
    (trimContext l).length = min l.length (2 * MAX_CONTEXT_MESSAGES) :=
  trimLoop_length l.length l (by omega)

theorem processMessage_context (llm : Nat → List Message → LLMResponse)
    (exec : String → String → ToolExecResult) (userMessage : String)
    (ctx : List Message) :
    (processMessage llm exec userMessage ctx).context
      = pushedContext userMessage ctx
        ++ [{ role := "assistant",
              content := (processMessage llm exec userMessage ctx).text }] := rfl

/-- Claim C2 (amended): after the user-message append, which the trimming
loop follows, the session length is at most 2 * maxContextMessages; the
final assistant append is not followed by trimming, so the session can
transiently reach 2 * maxContextMessages + 1 and never more. -/
theorem c2_amended (llm : Nat → List Message → LLMResponse)
    (exec : String → String → ToolExecResult) (userMessage : String)
    (ctx : List Message) :
    (pushedContext userMessage ctx).length ≤ 2 * MAX_CONTEXT_MESSAGES
    ∧ (processMessage llm exec userMessage ctx).context.length
        ≤ 2 * MAX_CONTEXT_MESSAGES + 1 := by
  constructor
  · rw [pushedContext, trimContext_length]
    omega
  · rw [processMessage_context, List.length_append, pushedContext, trimContext_length]
    simp only [List.length_singleton]
    omega

/-- Claim C2 counterexample: after the 21st turn (from an empty session)
the final assistant append leaves the session at 41 > 40 messages. -/
theorem c2_counterexample :
    ¬ ((sessionAfterTurns 21).length ≤ 2 * MAX_CONTEXT_MESSAGES) := by decide

theorem runLoop_succ (llm : Nat → List Message → LLMResponse)
    (exec : String → String → ToolExecResult) (fuel : Nat) (st : LoopState) :
    runLoop llm exec (fuel + 1) st =
      (match (llm st.calls st.llmMessages).choices.head? with
       | none =>
         { st with
           calls := st.calls + 1,
           lastResponse := some (llm st.calls st.llmMessages) }
       | some choice =>
         match choice.message.tool_calls with
         | [] =>
           { st with
             calls := st.calls + 1,
             lastResponse := some (llm st.calls st.llmMessages),
             finalContent := choice.message.content.getD "" }
         | tc :: tcs =>
           runLoop llm exec fuel (execToolCalls exec
             { st with
               calls := st.calls + 1,
               lastResponse := some (llm st.calls st.llmMessages),
               llmMessages := st.llmMessages ++
                 [{ role := "assistant", content := choice.message.content.getD "",
                    tool_calls := tc :: tcs }] } (tc :: tcs))) := rfl

/-- Claim C1 (amended): in the one-tool-call-then-final-text conversation,
processMessage returns the final text; the session then holds exactly 2
messages (the user message and the final assistant message), while the
4-message order user, assistant-with-tool-call, tool-result appears only
in the transient working list after the system prompt. -/
theorem c1_amended (llm : Nat → List Message → LLMResponse)
    (exec : String → String → ToolExecResult) (userMessage finalText : String)
    (c0 : Option String) (tc : ToolCall)
    (h0 : ∀ msgs, llm 0 msgs
        = { choices := [{ message := { content := c0, tool_calls := [tc] } }] })
    (h1 : ∀ msgs, llm 1 msgs
        = { choices := [{ message := { content := some finalText, tool_calls := [] } }] })
    (hft : finalText ≠ "") :
    (processMessage llm exec userMessage []).text = finalText
    ∧ (processMessage llm exec userMessage []).context
        = [{ role := "user", content := userMessage },
           { role := "assistant", content := finalText }]
    ∧ (processMessage llm exec userMessage []).llmMessages
        = [{ role := "system", content := SYSTEM_PROMPT },
           { role := "user", content := userMessage },
           { role := "assistant", content := c0.getD "", tool_calls := [tc] },
           { role := "tool", content := (exec tc.function.name tc.function.arguments).result,
             tool_call_id := some tc.id }]
    ∧ (processMessage llm exec userMessage []).llmCalls = 2 := by
  have htrim : pushedContext userMessage []
      = [{ role := "user", content := userMessage }] := by
    simp [pushedContext, trimContext, trimLoop, MAX_CONTEXT_MESSAGES]
  have e5 : MAX_TOOL_ITERATIONS = 4 + 1 := rfl
  have e4 : (4 : Nat) = 3 + 1 := rfl
  refine ⟨?_, ?_, ?_, ?_⟩ <;>
    simp [processMessage, loopResult, initialState, finalizeText, htrim, e5, e4,
      runLoop_succ, h0, h1, execToolCalls, execOneTool, hft]

/-- Claim C1 counterexample: in the mocked end-to-end scenario the session
does not contain 4 messages (it contains 2). -/
theorem c1_counterexample :
    (processMessage c1MockLLM c1MockExec "list my articles" []).text
        = "Here are your 2 articles."
    ∧ ¬ ((processMessage c1MockLLM c1MockExec "list my articles" []).context.length = 4) := by
  constructor
  · rfl
  · decide

/-- Witness for C1 at the mocked scenario collaborators. -/
theorem c1_witness :
    (processMessage c1MockLLM c1MockExec "list my articles" []).text
        = "Here are your 2 articles."
    ∧ (processMessage c1MockLLM c1MockExec "list my articles" []).context
        = [{ role := "user", content := "list my articles" },
           { role := "assistant", content := "Here are your 2 articles." }]
    ∧ (processMessage c1MockLLM c1MockExec "list my articles" []).llmCalls = 2 := by
  have h := c1_amended c1MockLLM c1MockExec "list my articles" "Here are your 2 articles."
      none c1ToolCall (fun _ => rfl) (fun _ => rfl) (by decide)
  exact ⟨h.1, h.2.1, h.2.2.2⟩

end AiAdminBot

namespace AiAdminBot

theorem execToolCalls_cons (exec : String → String → ToolExecResult)
    (st : LoopState) (tc : ToolCall) (tcs : List ToolCall) :
    execToolCalls exec st (tc :: tcs) = execToolCalls exec (execOneTool exec st tc) tcs := rfl

theorem execToolCalls_calls (exec : String → String → ToolExecResult) :
    ∀ (tcs : List ToolCall) (st : LoopState),
      (execToolCalls exec st tcs).calls = st.calls := by
  intro tcs
  induction tcs with
  | nil => intro st; rfl
  | cons tc tcs ih =>
      intro st
      rw [execToolCalls_cons, ih]
      rfl

theorem execToolCalls_finalContent (exec : String → String → ToolExecResult) :
    ∀ (tcs : List ToolCall) (st : LoopState),
      (execToolCalls exec st tcs).finalContent = st.finalContent := by
  intro tcs
  induction tcs with
  | nil => intro st; rfl
  | cons tc tcs ih =>
      intro st
      rw [execToolCalls_cons, ih]
      rfl

theorem execToolCalls_lastResponse (exec : String → String → ToolExecResult) :
    ∀ (tcs : List ToolCall) (st : LoopState),
      (execToolCalls exec st tcs).lastResponse = st.lastResponse := by
  intro tcs
  induction tcs with
  | nil => intro st; rfl
  | cons tc tcs ih =>
      intro st
      rw [execToolCalls_cons, ih]
      rfl

theorem execToolCalls_toolResults_length (exec : String → String → ToolExecResult) :
    ∀ (tcs : List ToolCall) (st : LoopState),
      (execToolCalls exec st tcs).toolResults.length
        = st.toolResults.length + tcs.length := by
  intro tcs
  induction tcs with
  | nil => intro st; rfl
  | cons tc tcs ih =>
      intro st
      rw [execToolCalls_cons, ih]
      simp [execOneTool]
      omega

theorem runLoop_tools (llm : Nat → List Message → LLMResponse)
    (exec : String → String → ToolExecResult)
    (htc : ∀ n msgs, ∃ c tc tcs rest, (llm n msgs).choices
        = { message := { content := c, tool_calls := tc :: tcs } } :: rest) :
    ∀ (fuel : Nat) (st : LoopState),
      (runLoop llm exec fuel st).calls = st.calls + fuel
      ∧ (runLoop llm exec fuel st).finalContent = st.finalContent
      ∧ st.toolResults.length + fuel ≤ (runLoop llm exec fuel st).toolResults.length
      ∧ (0 < fuel → ((runLoop llm exec fuel st).lastResponse).isSome = true) := by
  intro fuel
  induction fuel with
  | zero => intro st; simp [runLoop]
  | succ fuel ih =>
      intro st
      obtain ⟨c, tc, tcs, rest, hresp⟩ := htc st.calls st.llmMessages
      rw [runLoop_succ, hresp]
      simp only [List.head?_cons]
      obtain ⟨ih1, ih2, ih3, ih4⟩ := ih (execToolCalls exec
        { st with
          calls := st.calls + 1,
          lastResponse := some (llm st.calls st.llmMessages),
          llmMessages := st.llmMessages ++
            [{ role := "assistant", content := c.getD "",
               tool_calls := tc :: tcs }] } (tc :: tcs))
      refine ⟨?_, ?_, ?_, fun _ => ?_⟩
      · rw [ih1, execToolCalls_calls]
        show st.calls + 1 + fuel = st.calls + (fuel + 1)
        omega
      · rw [ih2, execToolCalls_finalContent]
      · rw [execToolCalls_toolResults_length] at ih3
        have he : ({ st with
            calls := st.calls + 1,
            lastResponse := some (llm st.calls st.llmMessages),
            llmMessages := st.llmMessages ++
              [{ role := "assistant", content := c.getD "",
                 tool_calls := tc :: tcs }] : LoopState }).toolResults
            = st.toolResults := rfl
        rw [he, List.length_cons] at ih3
        omega
      · cases fuel with
        | zero => simp [runLoop, execToolCalls_lastResponse]
        | succ fuel => exact ih4 (by omega)

theorem jsJoin_two_ne_empty (a b : String) (t : List String) :
    jsJoin "\n\n" (a :: b :: t) ≠ "" := by
  intro h
  have hlen := congrArg String.length h
  have h2 : ("\n\n" : String).length = 2 := rfl
  simp only [jsJoin, String.length_append, h2, String.length_empty] at hlen
  omega

theorem finalizeText_of_empty (st : LoopState) (h : st.finalContent = "")
    (hlen : 0 < st.toolResults.length) :
    finalizeText st
      = (if lastResponseContent st.lastResponse = ""
         then jsJoin "\n\n" (st.toolResults.map (fun p => p.2.result))
         else lastResponseContent st.lastResponse) := by
  simp only [finalizeText, h, if_pos rfl]
  by_cases hlrc : lastResponseContent st.lastResponse = ""
  · simp [hlrc, hlen]
  · simp [hlrc]

theorem finalizeText_tools_ne_empty (st : LoopState) (h : st.finalContent = "")
    (hlen : 2 ≤ st.toolResults.length) : finalizeText st ≠ "" := by
  rw [finalizeText_of_empty st h (by omega)]
  by_cases hlrc : lastResponseContent st.lastResponse = ""
  · rw [if_pos hlrc]
    match hl : st.toolResults with
    | [] => rw [hl] at hlen; simp at hlen
    | [p] => rw [hl] at hlen; simp at hlen
    | p :: q :: rest =>
        simp only [List.map_cons]
        exact jsJoin_two_ne_empty _ _ _
  · rw [if_neg hlrc]
    exact hlrc

/-- Claim C4: against an LLM client that returns tool calls on every
invocation, processMessage makes exactly MAX_TOOL_ITERATIONS model calls
and never a sixth; the returned text is non-empty, falling back to the
last model text when any, else to the joined collected tool result
texts. -/
theorem c4_loop_bound (llm : Nat → List Message → LLMResponse)
    (exec : String → String → ToolExecResult)
    (htc : ∀ n msgs, ∃ c tc tcs rest, (llm n msgs).choices
        = { message := { content := c, tool_calls := tc :: tcs } } :: rest)
    (userMessage : String) (context0 : List Message) :
    (processMessage llm exec userMessage context0).llmCalls = MAX_TOOL_ITERATIONS
    ∧ (processMessage llm exec userMessage context0).text
        = (if lastResponseContent (processMessage llm exec userMessage context0).lastResponse = ""
           then jsJoin "\n\n"
             ((processMessage llm exec userMessage context0).toolResults.map
               (fun p => p.2.result))
           else lastResponseContent
             (processMessage llm exec userMessage context0).lastResponse)
    ∧ (processMessage llm exec userMessage context0).text ≠ "" := by
  obtain ⟨hcalls, hfc, hlen, hsome⟩ :=
    runLoop_tools llm exec htc MAX_TOOL_ITERATIONS (initialState userMessage context0)
  have hcalls2 : (loopResult llm exec userMessage context0).calls = MAX_TOOL_ITERATIONS := by
    rw [loopResult, hcalls]
    rfl
  have hfc2 : (loopResult llm exec userMessage context0).finalContent = "" := by
    rw [loopResult, hfc]
    rfl
  have hlen2 : MAX_TOOL_ITERATIONS ≤ (loopResult llm exec userMessage context0).toolResults.length := by
    rw [loopResult]
    simpa [initialState] using hlen
  have hlen5 : 2 ≤ (loopResult llm exec userMessage context0).toolResults.length := by
    have h5 : (2 : Nat) ≤ MAX_TOOL_ITERATIONS := by norm_num [MAX_TOOL_ITERATIONS]
    omega
  refine ⟨hcalls2, ?_, ?_⟩
  · show finalizeText (loopResult llm exec userMessage context0) = _
    exact finalizeText_of_empty _ hfc2 (by omega)
  · show finalizeText (loopResult llm exec userMessage context0) ≠ ""
    exact finalizeText_tools_ne_empty _ hfc2 hlen5

/-- Witness for C4 at a concrete always-tool-calling client. -/
theorem c4_witness :
    (processMessage c4MockLLM c4MockExec "hello" []).llmCalls = MAX_TOOL_ITERATIONS
    ∧ (processMessage c4MockLLM c4MockExec "hello" []).text ≠ "" := by
  have h := c4_loop_bound c4MockLLM c4MockExec
    (fun n msgs => ⟨some "", c4ToolCall, [], [], rfl⟩) "hello" []
  exact ⟨h.1, h.2.2⟩

end AiAdminBot


namespace AiAdminBot

theorem mapGet?_cons {α : Type} (a : Nat × α) (t : List (Nat × α)) (k : Nat) :
    mapGet? k (a :: t) = if a.1 == k then some a.2 else mapGet? k t := by
  simp only [mapGet?, List.find?_cons]
  cases hak : a.1 == k <;> simp [hak]

theorem mapHas_cons {α : Type} (a : Nat × α) (t : List (Nat × α)) (k : Nat) :
    mapHas k (a :: t) = (a.1 == k || mapHas k t) := by
  simp only [mapHas, mapGet?_cons]
  cases hak : a.1 == k <;> simp [hak]

theorem mapHas_iff_mem_keys {α : Type} (k : Nat) (m : List (Nat × α)) :
    mapHas k m = true ↔ k ∈ m.map Prod.fst := by
  induction m with
  | nil => simp [mapHas, mapGet?]
  | cons a t ih =>
      rw [mapHas_cons]
      simp only [Bool.or_eq_true, beq_iff_eq, List.map_cons, List.mem_cons, ih]
      constructor
      · rintro (h | h)
        · exact Or.inl h.symm
        · exact Or.inr h
      · rintro (h | h)
        · exact Or.inl h.symm
        · exact Or.inr h

theorem mapHas_of_mem {α : Type} {k : Nat} {v : α} {m : List (Nat × α)}
    (h : (k, v) ∈ m) : mapHas k m = true := by
  rw [mapHas_iff_mem_keys]
  exact List.mem_map.mpr ⟨(k, v), h, rfl⟩

theorem mapSet_keys {α : Type} (k : Nat) (v : α) (m : List (Nat × α)) :
    (mapSet k v m).map Prod.fst
      = (if mapHas k m then m.map Prod.fst else m.map Prod.fst ++ [k]) := by
  simp only [mapSet]
  split
  · rw [List.map_map]
    apply List.map_congr_left
    intro a _
    simp only [Function.comp_apply]
    cases hak : a.1 == k with
    | true => simp [(eq_of_beq hak).symm]
    | false => simp
  · simp

theorem length_mapSet {α : Type} (k : Nat) (v : α) (m : List (Nat × α)) :
    (mapSet k v m).length = if mapHas k m then m.length else m.length + 1 := by
  simp only [mapSet]
  split <;> simp

theorem mapGet?_mapSet_self {α : Type} (k : Nat) (v : α) (m : List (Nat × α)) :
    mapGet? k (mapSet k v m) = some v := by
  induction m with
  | nil => simp [mapSet, mapHas, mapGet?]
  | cons a t ih =>
      cases hak : a.1 == k with
      | true =>
          have hhas : mapHas k (a :: t) = true := by simp [mapHas_cons, hak]
          simp only [mapSet, hhas, if_true, List.map_cons, hak, if_pos]
          simp [mapGet?_cons]
      | false =>
          have hhc : mapHas k (a :: t) = mapHas k t := by
            simp [mapHas_cons, hak]
          cases hhast : mapHas k t with
          | true =>
              have iht := ih
              simp only [mapSet, hhast, if_true] at iht
              simp only [mapSet, hhc, hhast, if_true, List.map_cons, hak,
                Bool.false_eq_true, if_false]
              rw [mapGet?_cons, if_neg (by simp [hak])]
              exact iht
          | false =>
              have iht := ih
              simp only [mapSet, hhast, Bool.false_eq_true, if_false] at iht
              simp only [mapSet, hhc, hhast, Bool.false_eq_true, if_false,
                List.cons_append]
              rw [mapGet?_cons, if_neg (by simp [hak])]
              exact iht

theorem mapHas_mapSet_self {α : Type} (k : Nat) (v : α) (m : List (Nat × α)) :
    mapHas k (mapSet k v m) = true := by
  simp [mapHas, mapGet?_mapSet_self]

theorem mapHas_mapSet_ne {α : Type} {j k : Nat} (hne : j ≠ k) (v : α)
    (m : List (Nat × α)) :
    mapHas j (mapSet k v m) = mapHas j m := by
  have h1 := mapHas_iff_mem_keys j (mapSet k v m)
  have h2 := mapHas_iff_mem_keys j m
  rw [mapSet_keys] at h1
  by_cases hkm : mapHas k m = true
  · rw [if_pos hkm] at h1
    exact Bool.eq_iff_iff.mpr (h1.trans h2.symm)
  · rw [if_neg hkm, List.mem_append, List.mem_singleton] at h1
    have hor : j ∈ m.map Prod.fst ∨ j = k ↔ j ∈ m.map Prod.fst := or_iff_left hne
    exact Bool.eq_iff_iff.mpr (h1.trans (hor.trans h2.symm))

theorem mapDelete_keys {α : Type} (k : Nat) (m : List (Nat × α)) :
    (mapDelete k m).map Prod.fst = (m.map Prod.fst).filter (fun x => x != k) := by
  induction m with
  | nil => rfl
  | cons a t ih =>
      simp only [mapDelete, List.filter_cons, List.map_cons] at ih ⊢
      cases ha : a.1 != k with
      | true => simp [ha, ih]
      | false => simp [ha, ih]

theorem mapHas_mapDelete_self {α : Type} (k : Nat) (m : List (Nat × α)) :
    mapHas k (mapDelete k m) = false := by
  have h := mapHas_iff_mem_keys k (mapDelete k m)
  rw [mapDelete_keys] at h
  have hnot : k ∉ (m.map Prod.fst).filter (fun x => x != k) := by
    intro hmem
    have := List.of_mem_filter hmem
    simp at this
  cases hb : mapHas k (mapDelete k m) with
  | false => rfl
  | true => exact absurd (h.mp hb) hnot

theorem mapHas_mapDelete_of_not {α : Type} {j : Nat} (k : Nat)
    {m : List (Nat × α)} (h : mapHas j m = false) :
    mapHas j (mapDelete k m) = false := by
  cases hb : mapHas j (mapDelete k m) with
  | false => rfl
  | true =>
      have hmem := (mapHas_iff_mem_keys j (mapDelete k m)).mp hb
      rw [mapDelete_keys] at hmem
      have := List.mem_of_mem_filter hmem
      rw [← mapHas_iff_mem_keys] at this
      rw [this] at h
      exact absurd h (by simp)

theorem length_mapDelete_of_mem {α : Type} :
    ∀ {m : List (Nat × α)} {k : Nat} {v : α},
      (m.map Prod.fst).Nodup → (k, v) ∈ m →
      (mapDelete k m).length = m.length - 1 := by
  intro m
  induction m with
  | nil => intro k v _ hmem; simp at hmem
  | cons a t ih =>
      intro k v hnd hmem
      simp only [List.map_cons, List.nodup_cons] at hnd
      obtain ⟨hknt, hndt⟩ := hnd
      rcases List.mem_cons.mp hmem with heq | hmemt
      · have ha1 : a.1 = k := by rw [← heq]
        have hself : (a.1 != k) = false := by simp [ha1]
        simp only [mapDelete, List.filter_cons, hself, Bool.false_eq_true, if_false]
        have hall : ∀ p ∈ t, (p.1 != k) = true := by
          intro p hp
          have hpk : p.1 ∈ t.map Prod.fst := List.mem_map.mpr ⟨p, hp, rfl⟩
          simp only [bne_iff_ne, ne_eq]
          intro he
          rw [he, ← ha1] at hpk
          exact hknt hpk
        rw [List.filter_eq_self.mpr hall]
        simp
      · have hk_in : k ∈ t.map Prod.fst := List.mem_map.mpr ⟨(k, v), hmemt, rfl⟩
        have hane : (a.1 != k) = true := by
          simp only [bne_iff_ne, ne_eq]
          intro he
          rw [← he] at hk_in
          exact hknt hk_in
        have hlt : 1 ≤ t.length := by
          cases t with
          | nil => simp at hmemt
          | cons b u => simp
        simp only [mapDelete, List.filter_cons, hane, if_true, List.length_cons]
        have iht := ih hndt hmemt
        simp only [mapDelete] at iht
        omega

theorem nodup_append_singleton {l : List Nat} {a : Nat} (hnd : l.Nodup)
    (ha : a ∉ l) : (l ++ [a]).Nodup := by
  rw [List.nodup_append]
  refine ⟨hnd, List.nodup_singleton a, fun x hx hx2 => ?_⟩
  rw [List.mem_singleton] at hx2
  subst hx2
  exact ha hx

end AiAdminBot

namespace AiAdminBot

theorem oldestEntry_fold_spec :
    ∀ (l : SessionStore) (acc : Option (Nat × UserContext)) (kv : Nat × UserContext),
      l.foldl olderEntry acc = some kv →
      (acc = some kv ∨ kv ∈ l)
      ∧ (∀ q, acc = some q → kv.2.lastActivity ≤ q.2.lastActivity)
      ∧ (∀ p ∈ l, kv.2.lastActivity ≤ p.2.lastActivity) := by
  intro l
  induction l with
  | nil =>
      intro acc kv h
      simp only [List.foldl_nil] at h
      refine ⟨Or.inl h, fun q hq => ?_, fun p hp => absurd hp (List.not_mem_nil p)⟩
      rw [h] at hq
      injection hq with hq
      rw [hq]
  | cons a t ih =>
      intro acc kv h
      rw [List.foldl_cons] at h
      obtain ⟨ih1, ih2, ih3⟩ := ih (olderEntry acc a) kv h
      cases acc with
      | none =>
          rw [show olderEntry none a = some a from rfl] at ih1 ih2
          refine ⟨?_, fun q hq => Option.noConfusion hq, fun p hp => ?_⟩
          · rcases ih1 with h1 | h1
            · injection h1 with h1
              exact Or.inr (h1 ▸ List.mem_cons_self a t)
            · exact Or.inr (List.mem_cons_of_mem a h1)
          · rcases List.mem_cons.mp hp with he | hpt
            · rw [he]
              exact ih2 a rfl
            · exact ih3 p hpt
      | some q0 =>
          by_cases hlt : a.2.lastActivity < q0.2.lastActivity
          · rw [show olderEntry (some q0) a
                = if a.2.lastActivity < q0.2.lastActivity then some a else some q0
                from rfl, if_pos hlt] at ih1 ih2
            have hkva : kv.2.lastActivity ≤ a.2.lastActivity := ih2 a rfl
            refine ⟨?_, fun q hq => ?_, fun p hp => ?_⟩
            · rcases ih1 with h1 | h1
              · injection h1 with h1
                exact Or.inr (h1 ▸ List.mem_cons_self a t)
              · exact Or.inr (List.mem_cons_of_mem a h1)
            · injection hq with hq
              rw [← hq]
              exact le_trans hkva (le_of_lt hlt)
            · rcases List.mem_cons.mp hp with he | hpt
              · rw [he]
                exact hkva
              · exact ih3 p hpt
          · rw [show olderEntry (some q0) a
                = if a.2.lastActivity < q0.2.lastActivity then some a else some q0
                from rfl, if_neg hlt] at ih1 ih2
            have hkvq : kv.2.lastActivity ≤ q0.2.lastActivity := ih2 q0 rfl
            refine ⟨?_, fun q hq => ?_, fun p hp => ?_⟩
            · rcases ih1 with h1 | h1
              · exact Or.inl h1
              · exact Or.inr (List.mem_cons_of_mem a h1)
            · injection hq with hq
              rw [← hq]
              exact hkvq
            · rcases List.mem_cons.mp hp with he | hpt
              · rw [he]
                exact le_trans hkvq (not_lt.mp hlt)
              · exact ih3 p hpt

theorem oldestEntry_spec (store : SessionStore) (kv : Nat × UserContext)
    (h : oldestEntry store = some kv) :
    kv ∈ store ∧ ∀ p ∈ store, kv.2.lastActivity ≤ p.2.lastActivity := by
  obtain ⟨h1, _, h3⟩ := oldestEntry_fold_spec store none kv h
  rcases h1 with h1 | h1
  · exact Option.noConfusion h1
  · exact ⟨h1, h3⟩

theorem foldl_olderEntry_isSome :
    ∀ (l : SessionStore) (acc : Option (Nat × UserContext)),
      acc.isSome = true → (l.foldl olderEntry acc).isSome = true := by
  intro l
  induction l with
  | nil => intro acc h; simpa using h
  | cons a t ih =>
      intro acc h
      rw [List.foldl_cons]
      apply ih
      cases acc with
      | none => rfl
      | some q =>
          rw [show olderEntry (some q) a
            = if a.2.lastActivity < q.2.lastActivity then some a else some q from rfl]
          split <;> rfl

theorem oldestEntry_isSome (store : SessionStore) (h : store ≠ []) :
    (oldestEntry store).isSome = true := by
  cases store with
  | nil => exact absurd rfl h
  | cons a t =>
      rw [oldestEntry, List.foldl_cons]
      exact foldl_olderEntry_isSome t (olderEntry none a) rfl

end AiAdminBot

namespace AiAdminBot

/-- Claim C3 (amended): along getUserContext operations the store never
exceeds capacity and eviction removes the oldest entry; clearUserContext
bypasses the capacity check. -/
theorem c3_amended (now : Int) (id : Nat) (store : SessionStore) :
    ((store.map Prod.fst).Nodup → store.length ≤ MAX_CACHED_USERS →
      ((getUserContext now id store).2.length ≤ MAX_CACHED_USERS
       ∧ (((getUserContext now id store).2.map Prod.fst)).Nodup))
    ∧ (∀ kv, oldestEntry store = some kv →
        kv ∈ store ∧ ∀ p ∈ store, kv.2.lastActivity ≤ p.2.lastActivity)
    ∧ (mapHas id store = false → MAX_CACHED_USERS ≤ store.length →
        ∀ kv, oldestEntry store = some kv →
          mapHas kv.1 (getUserContext now id store).2 = false
          ∧ mapHas id (getUserContext now id store).2 = true) := by
  refine ⟨?_, ?_, ?_⟩
  · intro hnd hlen
    by_cases hhas : mapHas id store = true
    · have e1 : evictIfFull id store = store := by simp [evictIfFull, hhas]
      have e2 : ensureEntry now id store = store := by simp [ensureEntry, hhas]
      simp only [getUserContext, e1, e2]
      constructor
      · rw [length_mapSet, if_pos hhas]
        exact hlen
      · rw [mapSet_keys, if_pos hhas]
        exact hnd
    · have hhasF : mapHas id store = false := by
        cases hb : mapHas id store with
        | false => rfl
        | true => exact absurd hb hhas
      by_cases hcap : MAX_CACHED_USERS ≤ store.length
      · have hne : store ≠ [] := by
          intro he
          rw [he] at hcap
          norm_num [MAX_CACHED_USERS] at hcap
        obtain ⟨kv, hkv⟩ := Option.isSome_iff_exists.mp (oldestEntry_isSome store hne)
        obtain ⟨hmem, _⟩ := oldestEntry_spec store kv hkv
        have e1 : evictIfFull id store = mapDelete kv.1 store := by
          simp [evictIfFull, hhasF, hcap, hkv]
        have hhas1 : mapHas id (mapDelete kv.1 store) = false :=
          mapHas_mapDelete_of_not kv.1 hhasF
        have e2 : ensureEntry now id (mapDelete kv.1 store)
            = mapSet id { messages := [], lastActivity := now } (mapDelete kv.1 store) := by
          simp [ensureEntry, hhas1]
        have hdel_len : (mapDelete kv.1 store).length = store.length - 1 := by
          exact length_mapDelete_of_mem hnd hmem
        have hdel_keys : ((mapDelete kv.1 store).map Prod.fst).Nodup := by
          rw [mapDelete_keys]
          exact hnd.filter _
        have hid_not : id ∉ (mapDelete kv.1 store).map Prod.fst := by
          intro hm
          rw [← mapHas_iff_mem_keys] at hm
          rw [hm] at hhas1
          exact absurd hhas1 (by simp)
        have hsetlen : (mapSet id { messages := [], lastActivity := now }
            (mapDelete kv.1 store)).length = store.length - 1 + 1 := by
          rw [length_mapSet, if_neg (by rw [hhas1]; simp), hdel_len]
        have hone : 1 ≤ store.length := by
          norm_num [MAX_CACHED_USERS] at hcap
          omega
        simp only [getUserContext, e1, e2]
        constructor
        · rw [length_mapSet, if_pos (mapHas_mapSet_self _ _ _), hsetlen]
          omega
        · rw [mapSet_keys, if_pos (mapHas_mapSet_self _ _ _), mapSet_keys,
            if_neg (by rw [hhas1]; simp)]
          exact nodup_append_singleton hdel_keys hid_not
      · have e1 : evictIfFull id store = store := by
          simp [evictIfFull, hcap]
        have e2 : ensureEntry now id store
            = mapSet id { messages := [], lastActivity := now } store := by
          simp [ensureEntry, hhasF]
        have hid_not : id ∉ store.map Prod.fst := by
          intro hm
          rw [← mapHas_iff_mem_keys] at hm
          rw [hm] at hhasF
          exact absurd hhasF (by simp)
        simp only [getUserContext, e1, e2]
        constructor
        · rw [length_mapSet, if_pos (mapHas_mapSet_self _ _ _), length_mapSet,
            if_neg (by rw [hhasF]; simp)]
          omega
        · rw [mapSet_keys, if_pos (mapHas_mapSet_self _ _ _), mapSet_keys,
            if_neg (by rw [hhasF]; simp)]
          exact nodup_append_singleton hnd hid_not
  · intro kv hkv
    exact oldestEntry_spec store kv hkv
  · intro hhasF hcap kv hkv
    obtain ⟨hmem, _⟩ := oldestEntry_spec store kv hkv
    have hkv_has : mapHas kv.1 store = true := by
      rcases kv with ⟨k, v⟩
      exact mapHas_of_mem hmem
    have hne_id : kv.1 ≠ id := by
      intro he
      rw [he] at hkv_has
      rw [hkv_has] at hhasF
      exact absurd hhasF (by simp)
    have e1 : evictIfFull id store = mapDelete kv.1 store := by
      simp [evictIfFull, hhasF, hcap, hkv]
    have hhas1 : mapHas id (mapDelete kv.1 store) = false :=
      mapHas_mapDelete_of_not kv.1 hhasF
    have e2 : ensureEntry now id (mapDelete kv.1 store)
        = mapSet id { messages := [], lastActivity := now } (mapDelete kv.1 store) := by
      simp [ensureEntry, hhas1]
    simp only [getUserContext, e1, e2]
    constructor
    · rw [mapHas_mapSet_ne hne_id, mapHas_mapSet_ne hne_id, mapHas_mapDelete_self]
    · exact mapHas_mapSet_self _ _ _

end AiAdminBot

namespace AiAdminBot

theorem clearFold_keys : ∀ n : Nat,
    (((List.range n).foldl (fun s i => clearUserContext 0 i s) []).map Prod.fst)
      = List.range n := by
  intro n
  induction n with
  | zero => rfl
  | succ n ih =>
      rw [List.range_succ, List.foldl_append, List.foldl_cons, List.foldl_nil]
      show (mapSet n { messages := [], lastActivity := 0 }
        ((List.range n).foldl (fun s i => clearUserContext 0 i s) [])).map Prod.fst
        = List.range n ++ [n]
      rw [mapSet_keys]
      have hnot : mapHas n ((List.range n).foldl
          (fun s i => clearUserContext 0 i s) []) = false := by
        cases hb : mapHas n ((List.range n).foldl
            (fun s i => clearUserContext 0 i s) []) with
        | false => rfl
        | true =>
            have hmem := (mapHas_iff_mem_keys n _).mp hb
            rw [ih, List.mem_range] at hmem
            omega
      rw [if_neg (by rw [hnot]; simp), ih]

theorem c3Overflow_length : c3Overflow.length = MAX_CACHED_USERS + 1 := by
  have h := clearFold_keys (MAX_CACHED_USERS + 1)
  calc c3Overflow.length
      = (c3Overflow.map Prod.fst).length := (List.length_map _ _).symm
    _ = (List.range (MAX_CACHED_USERS + 1)).length := by
        rw [show c3Overflow.map Prod.fst
          = ((List.range (MAX_CACHED_USERS + 1)).foldl
              (fun s i => clearUserContext 0 i s) []).map Prod.fst from rfl, h]
    _ = MAX_CACHED_USERS + 1 := List.length_range _

/-- Claim C3 counterexample: resetting MAX_CACHED_USERS + 1 distinct fresh
users leaves the store with 501 sessions. -/
theorem c3_counterexample :
    ¬ (c3Overflow.length ≤ MAX_CACHED_USERS) := by
  rw [c3Overflow_length]
  omega

end AiAdminBot

namespace AiAdminBot

theorem c3FullStore_keys : c3FullStore.map Prod.fst = List.range MAX_CACHED_USERS := by
  rw [c3FullStore, List.map_map]
  show List.map (fun i => i) (List.range MAX_CACHED_USERS) = List.range MAX_CACHED_USERS
  exact List.map_id _

theorem c3FullStore_nodup : (c3FullStore.map Prod.fst).Nodup := by
  rw [c3FullStore_keys]
  exact List.nodup_range _

theorem c3FullStore_length : c3FullStore.length ≤ MAX_CACHED_USERS := by
  simp [c3FullStore]

theorem c3FullStore_length_ge : MAX_CACHED_USERS ≤ c3FullStore.length := by
  simp [c3FullStore]

theorem c3FullStore_has500 : mapHas 500 c3FullStore = false := by
  cases hb : mapHas 500 c3FullStore with
  | false => rfl
  | true =>
      have hmem := (mapHas_iff_mem_keys 500 c3FullStore).mp hb
      rw [c3FullStore_keys, List.mem_range] at hmem
      norm_num [MAX_CACHED_USERS] at hmem

set_option maxHeartbeats 1000000 in
/-- Witness for C3 at a full 500-entry store and a fresh user id 500. -/
theorem c3_witness :
    (getUserContext 7 500 c3FullStore).2.length ≤ MAX_CACHED_USERS
    ∧ ((0, { messages := [], lastActivity := 0 }) : Nat × UserContext) ∈ c3FullStore
    ∧ (mapHas 0 (getUserContext 7 500 c3FullStore).2 = false
       ∧ mapHas 500 (getUserContext 7 500 c3FullStore).2 = true) :=
  ⟨((c3_amended 7 500 c3FullStore).1 c3FullStore_nodup c3FullStore_length).1,
   ((c3_amended 7 500 c3FullStore).2.1
     (0, { messages := [], lastActivity := 0 }) (by decide)).1,
   (c3_amended 7 500 c3FullStore).2.2 c3FullStore_has500 c3FullStore_length_ge
     (0, { messages := [], lastActivity := 0 }) (by decide)⟩

end AiAdminBot

namespace AiAdminBot

/-- Claim C6: a user at the rate limit gets exactly the slow-down reply; the
model is never invoked, the session store is untouched, and the only state
change is the pruning of that user's rate window. -/
theorem c6_rate_limited_no_llm (env : Option String)
    (llm : Nat → List Message → LLMResponse)
    (exec : String → String → ToolExecResult) (now : Int) (userId : Nat)
    (text : String) (st : BotState)
    (hacc : isUserAllowed env userId = true)
    (htext : ¬ (text = "" ∨ strStartsWith text "/" = true))
    (hlim : RATE_LIMIT_MAX_MESSAGES
        ≤ (pruneTs now ((mapGet? userId st.rateLimitMap).getD [])).length) :
    handleTextMessage env llm exec now userId text st
      = { replies := [Reply.message RATE_LIMIT_REPLY], llmCalls := 0,
          state :=
            { rateLimitMap :=
                mapSet userId (pruneTs now ((mapGet? userId st.rateLimitMap).getD []))
                  st.rateLimitMap,
              userContexts := st.userContexts } } := by
  have hrl : isRateLimited now userId st.rateLimitMap
      = (true, mapSet userId (pruneTs now ((mapGet? userId st.rateLimitMap).getD []))
          st.rateLimitMap) := by
    simp only [isRateLimited]
    rw [if_pos hlim]
  simp only [handleTextMessage, hacc, hrl]
  rw [if_neg (by simp), if_neg htext, if_pos trivial]

/-- Witness for C6: user 1 at exactly 10 recent timestamps. -/
theorem c6_witness :
    isUserAllowed none 1 = true
    ∧ ¬ (("hi" : String) = "" ∨ strStartsWith "hi" "/" = true)
    ∧ handleTextMessage none oneShotLLM unusedExec 0 1 "hi"
        { rateLimitMap := [(1, List.replicate 10 0)], userContexts := [] }
      = { replies := [Reply.message RATE_LIMIT_REPLY], llmCalls := 0,
          state :=
            { rateLimitMap :=
                mapSet 1 (pruneTs 0 ((mapGet? 1 ([(1, List.replicate 10 0)] : RateMap)).getD []))
                  [(1, List.replicate 10 0)],
              userContexts := [] } } :=
  ⟨by decide, by decide,
   c6_rate_limited_no_llm none oneShotLLM unusedExec 0 1 "hi"
     { rateLimitMap := [(1, List.replicate 10 0)], userContexts := [] }
     (by decide) (by decide) (by decide)⟩

end AiAdminBot
